import Mathlib

/-!
Verification development for the hyperspectral-analysis core used by the
notebooks in this repository: the minimum-wavelength (MWL) absorption
feature-fitting engine, its result container, and the illumination
forward/inverse model (the hylite notebook corpus).  The notebooks only
call into the library, so the library operations are modelled here from
the specification; the panel back-calculation linear system, which is
written out explicitly in notebook code, is translated from that code.
All spectral quantities are modelled over ℚ; a NaN value (invalid sample
or invalid feature record) is modelled as `Option.none`.
-/

namespace HyDemo

/-! ## Illumination model -/

/-- Modelled from the spec: `IlluModel` state (missing from `src/`, which only
constructs and calls it).  Holds the sunlight spectrum `sun` and skylight
spectrum `sky` (indexed by wavelength band), the per-unit per-wavelength path
radiance `path` (already scaled by per-unit distance), per-unit skyview
factors `skv`, per-unit reflectance (BRDF) factors `rf`, and the optional
post-fit calibration adjustments: a multiplicative illumination boost
`iboost` and an additive radiance boost `rboost` (both per wavelength,
`none` before any statistical fit). -/
structure IlluModel where
  sun : List ℚ
  sky : List ℚ
  path : List (List ℚ)
  skv : List ℚ
  rf : List ℚ
  iboost : Option (List ℚ) := none
  rboost : Option (List ℚ) := none

/-- Modelled from the spec: the total downwelling illumination term
`skylight × skyview_factor + sunlight × reflectance_factor` at spatial unit
`u` and wavelength band `w` (Eq. 1 of the notebook). -/
def IlluModel.illum (m : IlluModel) (u w : Nat) : ℚ :=
  m.sky.getD w 0 * m.skv.getD u 0 + m.sun.getD w 0 * m.rf.getD u 0

/-- Modelled from the spec: the per-unit path-radiance term of the model. -/
def IlluModel.pathAt (m : IlluModel) (u w : Nat) : ℚ :=
  (m.path.getD u []).getD w 0

/-- Modelled from the spec: the illumination-boost term added to the
downwelling illumination by a statistical fit with shift x; zero when unfit. -/
def IlluModel.iboostAt (m : IlluModel) (w : Nat) : ℚ :=
  match m.iboost with
  | none => 0
  | some b => b.getD w 0

/-- Modelled from the spec: the radiance-boost (additive path-radiance
correction) term from a statistical fit with shift y; zero when unfit. -/
def IlluModel.rboostAt (m : IlluModel) (w : Nat) : ℚ :=
  match m.rboost with
  | none => 0
  | some b => b.getD w 0

/-- Modelled from the spec: forward model (Eq. 1),
`radiance = reflectance × (skylight × skyview + sunlight × rf) + path_radiance`.
The reflectance input is a per-unit per-wavelength value. -/
def IlluModel.getRadiance (m : IlluModel) (refl : Nat → Nat → ℚ) (u w : Nat) : ℚ :=
  refl u w * m.illum u w + m.pathAt u w

/-- Modelled from the spec: inverse model; algebraically solves Eq. 1 for
reflectance, applying any stored boosts, and yields NaN (`none`) where the
illumination denominator is zero instead of raising an exception. -/
def IlluModel.getReflectance (m : IlluModel) (rad : Nat → Nat → ℚ) (u w : Nat) : Option ℚ :=
  let den := m.illum u w + m.iboostAt w
  if den = 0 then none
  else some ((rad u w - m.pathAt u w - m.rboostAt w) / den)

/-- C1: with no boosts fitted, the inverse illumination model recovers any
reflectance input from the forward model's radiance, at every spatial unit
and wavelength where the illumination denominator is nonzero. -/
theorem illu_roundtrip (m : IlluModel) (hib : m.iboost = none) (hrb : m.rboost = none)
    (refl : Nat → Nat → ℚ) (u w : Nat) (hden : m.illum u w ≠ 0) :
    m.getReflectance (m.getRadiance refl) u w = some (refl u w) := by
  unfold IlluModel.getReflectance IlluModel.getRadiance
  simp only [IlluModel.iboostAt, IlluModel.rboostAt, hib, hrb, add_zero]
  rw [if_neg hden]
  congr 1
  field_simp

/-- Witness for C1 at a concrete one-unit, one-band model. -/
theorem illu_roundtrip_witness :
    (IlluModel.mk [2] [1] [[5]] [1] [(0:ℚ)] none none).illum 0 0 ≠ 0 ∧
    (IlluModel.mk [2] [1] [[5]] [1] [(0:ℚ)] none none).getReflectance
      ((IlluModel.mk [2] [1] [[5]] [1] [(0:ℚ)] none none).getRadiance
        (fun _ _ => (7:ℚ))) 0 0 = some ((7:ℚ)) :=
  ⟨by simp [IlluModel.illum],
   illu_roundtrip (IlluModel.mk [2] [1] [[5]] [1] [(0:ℚ)] none none)
     rfl rfl (fun _ _ => (7:ℚ)) 0 0 (by simp [IlluModel.illum])⟩

/-- C2: the forward model returns exactly
`reflectance × (skylight × skyview_factor + sunlight × reflectance_factor)
 + path_radiance` at every spatial unit and wavelength. -/
theorem getRadiance_eq (m : IlluModel) (refl : Nat → Nat → ℚ) (u w : Nat) :
    m.getRadiance refl u w =
      refl u w * (m.sky.getD w 0 * m.skv.getD u 0 + m.sun.getD w 0 * m.rf.getD u 0)
        + (m.path.getD u []).getD w 0 := rfl

/-- C3: with no illumination boost fitted, the inverse model yields NaN
(`none`) at exactly those units/wavelengths where the denominator
`skylight × skyview + sunlight × reflectance_factor` is zero; everywhere
else it yields a value, and being a total function it never raises. -/
theorem getReflectance_nan_iff (m : IlluModel) (hib : m.iboost = none)
    (rad : Nat → Nat → ℚ) (u w : Nat) :
    (m.getReflectance rad u w = none ↔
      m.sky.getD w 0 * m.skv.getD u 0 + m.sun.getD w 0 * m.rf.getD u 0 = 0) ∧
    (m.sky.getD w 0 * m.skv.getD u 0 + m.sun.getD w 0 * m.rf.getD u 0 ≠ 0 →
      (m.getReflectance rad u w).isSome) := by
  unfold IlluModel.getReflectance IlluModel.illum
  simp only [IlluModel.iboostAt, hib, add_zero]
  constructor
  · constructor
    · intro h
      by_contra hc
      rw [if_neg hc] at h
      exact Option.some_ne_none _ h
    · intro h
      rw [if_pos h]
  · intro h
    rw [if_neg h]
    rfl

/-- Witness for C3: a model whose unit 0 is fully shadowed (zero skyview and
zero reflectance factor) yields NaN there, while unit 1 yields a value. -/
theorem getReflectance_nan_witness :
    ((IlluModel.mk [2] [1] [[5], [5]] [0, 1] [(0:ℚ), 0] none none).getReflectance
        (fun _ _ => 7) 0 0 = none) ∧
    ((IlluModel.mk [2] [1] [[5], [5]] [0, 1] [(0:ℚ), 0] none none).getReflectance
        (fun _ _ => 7) 1 0).isSome := by
  constructor
  · exact ((getReflectance_nan_iff
      (IlluModel.mk [2] [1] [[5], [5]] [0, 1] [(0:ℚ), 0] none none)
      rfl (fun _ _ => 7) 0 0).1).mpr (by simp)
  · exact (getReflectance_nan_iff
      (IlluModel.mk [2] [1] [[5], [5]] [0, 1] [(0:ℚ), 0] none none)
      rfl (fun _ _ => 7) 1 0).2 (by simp)

/-! ## MWL result container -/

/-- Modelled from the spec: one fitted absorption feature record,
`(depth, position, width, width2)`; an invalid (failed) fit is represented
as `Option.none` around the record. -/
structure Feature where
  depth : ℚ
  pos : ℚ
  width : ℚ
  width2 : ℚ
deriving DecidableEq

/-- Sort key of a feature slot: invalid (NaN) slots compare below every
depth value. -/
def depthKey : Option Feature → WithBot ℚ
  | none => ⊥
  | some f => (f.depth : WithBot ℚ)

/-- Deepest-first order on feature slots: `rdep a b` holds when `a` is at
least as deep as `b` (NaN slots sort last). -/
def rdep (a b : Option Feature) : Prop := depthKey b ≤ depthKey a

instance : DecidableRel rdep :=
  fun a b => inferInstanceAs (Decidable (depthKey b ≤ depthKey a))

instance : IsTotal (Option Feature) rdep :=
  ⟨fun a b => le_total (depthKey b) (depthKey a)⟩

instance : IsTrans (Option Feature) rdep :=
  ⟨fun _ _ _ h1 h2 => le_trans h2 h1⟩

instance : IsRefl (Option Feature) rdep :=
  ⟨fun _ => le_refl _⟩

/-- Modelled from the spec: the MWL result container (missing from `src/`,
which only queries it) — for each spatial unit, an ordered list of feature
slots, invalid slots being `none`. -/
structure MWL where
  units : List (List (Option Feature))
deriving DecidableEq

/-- Modelled from the spec: `sortByDepth()` reorders each unit's feature
slots in place, deepest first, via a stable sort; NaN slots sort last. -/
def MWL.sortByDepth (m : MWL) : MWL :=
  ⟨m.units.map (List.insertionSort rdep)⟩

/-- The closed enumeration of feature attribute names. -/
inductive Attr
  | depth
  | pos
  | width
  | width2
deriving DecidableEq

/-- Projection of a feature record onto a named attribute. -/
def Attr.proj : Attr → Feature → ℚ
  | .depth, f => f.depth
  | .pos, f => f.pos
  | .width, f => f.width
  | .width2, f => f.width2

/-- Python-style signed slot index: nonnegative indices count from the
front, negative indices from the back. -/
def pyIdx (k : Int) (len : Nat) : Nat :=
  if 0 ≤ k then k.toNat else ((len : Int) + k).toNat

/-- Modelled from the spec: indexed access `m[k, attribute]` — across all
units, the `k`-th slot's named attribute, NaN (`none`) where the slot is an
invalid record. -/
def MWL.getItem (m : MWL) (k : Int) (a : Attr) : List (Option ℚ) :=
  m.units.map (fun slots => (slots.getD (pyIdx k slots.length) none).map a.proj)

/-- The depths of a unit's valid (non-NaN) feature slots. -/
def validDepths (slots : List (Option Feature)) : List ℚ :=
  (slots.filterMap id).map Feature.depth

/-- Whether a feature's position lies in the wavelength range `[lo, hi]`. -/
def featInRange (lo hi : ℚ) (f : Feature) : Bool :=
  decide (lo ≤ f.pos) && decide (f.pos ≤ hi)

/-- The first-encountered deepest feature of a list, `none` when empty. -/
def pickDeepest : List Feature → Option Feature
  | [] => none
  | f :: fs =>
    match pickDeepest fs with
    | none => some f
    | some g => if f.depth < g.depth then some g else some f

/-- Modelled from the spec: `deepest(lo, hi)` — per unit, the full record of
the deepest feature whose position lies in `[lo, hi]`, or NaN (`none`) when
the unit has no feature in range. -/
def MWL.deepest (m : MWL) (lo hi : ℚ) : List (Option Feature) :=
  m.units.map (fun slots => pickDeepest ((slots.filterMap id).filter (featInRange lo hi)))

/-- Evaluating a mapped list at an in-bounds index commutes with the map. -/
theorem getD_map_of_lt {α β : Type} (f : α → β) (l : List α) (u : Nat) (d : α) (e : β)
    (hu : u < l.length) : (l.map f).getD u e = f (l.getD u d) := by
  rw [List.getD_eq_getElem?_getD, List.getD_eq_getElem?_getD]
  rw [List.getElem?_eq_getElem hu, List.getElem?_eq_getElem (by simpa using hu)]
  simp

/-- Picking the deepest feature returns `none` exactly on the empty list. -/
theorem pickDeepest_eq_none {l : List Feature} : pickDeepest l = none ↔ l = [] := by
  cases l with
  | nil => simp [pickDeepest]
  | cons f fs =>
    simp only [pickDeepest]
    cases h : pickDeepest fs with
    | none => simp
    | some g =>
      constructor
      · intro hc
        by_cases hd : f.depth < g.depth <;> simp [hd] at hc
      · intro hc
        exact absurd hc (List.cons_ne_nil f fs)

/-- Picking the deepest feature returns a member of the list that is at
least as deep as every member. -/
theorem pickDeepest_spec {l : List Feature} {f : Feature} (h : pickDeepest l = some f) :
    f ∈ l ∧ ∀ g ∈ l, g.depth ≤ f.depth := by
  induction l generalizing f with
  | nil => exact absurd h (Option.noConfusion)
  | cons a l ih =>
    cases hp : pickDeepest l with
    | none =>
      simp only [pickDeepest, hp] at h
      obtain rfl : a = f := Option.some_injective _ h
      have hl : l = [] := pickDeepest_eq_none.mp hp
      subst hl
      exact ⟨List.mem_singleton_self _, by simp⟩
    | some g =>
      simp only [pickDeepest, hp] at h
      obtain ⟨hmem, hmax⟩ := ih hp
      by_cases hd : a.depth < g.depth
      · rw [if_pos hd] at h
        obtain rfl : g = f := Option.some_injective _ h
        refine ⟨List.mem_cons_of_mem _ hmem, ?_⟩
        intro x hx
        rcases List.mem_cons.mp hx with rfl | hx
        · exact le_of_lt hd
        · exact hmax x hx
      · rw [if_neg hd] at h
        obtain rfl : a = f := Option.some_injective _ h
        refine ⟨List.mem_cons_self _ _, ?_⟩
        intro x hx
        rcases List.mem_cons.mp hx with rfl | hx
        · exact le_refl _
        · exact le_trans (hmax x hx) (not_lt.mp hd)

/-- Evaluating a unitwise-permuting map at any index gives a permutation of
the original unit (out-of-range indices give the empty list on both sides). -/
theorem getD_map_perm {α : Type} (f : List α → List α) (hf : ∀ x, (f x).Perm x)
    (l : List (List α)) (u : Nat) : ((l.map f).getD u []).Perm (l.getD u []) := by
  induction l generalizing u with
  | nil => simp
  | cons x xs ih =>
    cases u with
    | zero => simpa using hf x
    | succ n => simpa using ih n

/-- C6: `sortByDepth` is idempotent — a second application changes nothing —
and it only permutes each unit's existing feature slots. -/
theorem sortByDepth_idem (m : MWL) :
    m.sortByDepth.sortByDepth = m.sortByDepth ∧
    m.sortByDepth.units.length = m.units.length ∧
    ∀ u, (m.sortByDepth.units.getD u []).Perm (m.units.getD u []) := by
  refine ⟨?_, ?_, ?_⟩
  · unfold MWL.sortByDepth
    congr 1
    rw [List.map_map]
    apply List.map_congr_left
    intro x _
    exact List.Sorted.insertionSort_eq (List.sorted_insertionSort rdep x)
  · unfold MWL.sortByDepth
    exact List.length_map _ _
  · intro u
    exact getD_map_perm _ (List.perm_insertionSort rdep) m.units u

/-- C7: per unit, `deepest(lo, hi)` yields NaN when no valid feature of the
unit has its position in `[lo, hi]`; whenever some valid feature is in
range a record is returned; and any returned record is one of the unit's
in-range features whose depth dominates every in-range feature. -/
theorem deepest_spec (m : MWL) (lo hi : ℚ) (u : Nat) (hu : u < m.units.length) :
    ((∀ f : Feature, some f ∈ m.units.getD u [] → featInRange lo hi f = false) →
      (m.deepest lo hi).getD u none = none) ∧
    ((∃ f : Feature, some f ∈ m.units.getD u [] ∧ featInRange lo hi f = true) →
      ∃ f : Feature, (m.deepest lo hi).getD u none = some f) ∧
    (∀ f : Feature, (m.deepest lo hi).getD u none = some f →
      some f ∈ m.units.getD u [] ∧ featInRange lo hi f = true ∧
      ∀ g : Feature, some g ∈ m.units.getD u [] → featInRange lo hi g = true →
        g.depth ≤ f.depth) := by
  have hval : (m.deepest lo hi).getD u none =
      pickDeepest (((m.units.getD u []).filterMap id).filter (featInRange lo hi)) := by
    unfold MWL.deepest
    exact getD_map_of_lt _ _ u [] none hu
  refine ⟨?_, ?_, ?_⟩
  · intro hnone
    rw [hval, pickDeepest_eq_none, List.filter_eq_nil_iff]
    intro f hf
    rcases List.mem_filterMap.mp hf with ⟨o, ho, hid⟩
    have hsome : some f ∈ m.units.getD u [] := by
      cases o with
      | none => exact absurd hid (Option.noConfusion)
      | some g =>
        obtain rfl : g = f := Option.some_injective _ hid
        exact ho
    simp [hnone f hsome]
  · rintro ⟨f, hf, hfr⟩
    have hfc : f ∈ ((m.units.getD u []).filterMap id).filter (featInRange lo hi) :=
      List.mem_filter.mpr ⟨List.mem_filterMap.mpr ⟨some f, hf, rfl⟩, hfr⟩
    cases hp : pickDeepest (((m.units.getD u []).filterMap id).filter (featInRange lo hi)) with
    | none =>
      rw [pickDeepest_eq_none] at hp
      rw [hp] at hfc
      exact absurd hfc (List.not_mem_nil f)
    | some g =>
      exact ⟨g, hval.trans hp⟩
  · intro f hf
    rw [hval] at hf
    obtain ⟨hmem, hmax⟩ := pickDeepest_spec hf
    have hmem2 := List.mem_filter.mp hmem
    rcases List.mem_filterMap.mp hmem2.1 with ⟨o, ho, hid⟩
    have hin : some f ∈ m.units.getD u [] := by
      cases o with
      | none => exact absurd hid (Option.noConfusion)
      | some g =>
        obtain rfl : g = f := Option.some_injective _ hid
        exact ho
    refine ⟨hin, hmem2.2, ?_⟩
    intro g hg hgr
    exact hmax g (List.mem_filter.mpr ⟨List.mem_filterMap.mpr ⟨some g, hg, rfl⟩, hgr⟩)

/-- Witness for C7: a unit with features at 2150 nm (depth 0.1) and 2200 nm
(depth 0.3); a record exists for the range `[2180, 2230]` and
`deepest(2180, 2230)` returns the 2200 nm record. -/
theorem deepest_spec_witness :
    (∃ f : Feature,
      ((MWL.mk [[some ⟨mkRat 1 10, 2150, 10, 10⟩,
                 some ⟨mkRat 3 10, 2200, 12, 12⟩]]).deepest 2180 2230).getD 0 none = some f) ∧
    (∀ f : Feature,
      ((MWL.mk [[some ⟨mkRat 1 10, 2150, 10, 10⟩,
                 some ⟨mkRat 3 10, 2200, 12, 12⟩]]).deepest 2180 2230).getD 0 none = some f →
      some f ∈ (MWL.mk [[some ⟨mkRat 1 10, 2150, 10, 10⟩,
                 some ⟨mkRat 3 10, 2200, 12, 12⟩]]).units.getD 0 [] ∧
      featInRange 2180 2230 f = true ∧
      ∀ g : Feature,
        some g ∈ (MWL.mk [[some ⟨mkRat 1 10, 2150, 10, 10⟩,
                 some ⟨mkRat 3 10, 2200, 12, 12⟩]]).units.getD 0 [] →
        featInRange 2180 2230 g = true → g.depth ≤ f.depth) ∧
    ((MWL.mk [[some ⟨mkRat 1 10, 2150, 10, 10⟩,
               some ⟨mkRat 3 10, 2200, 12, 12⟩]]).deepest 2180 2230).getD 0 none =
      some ⟨mkRat 3 10, 2200, 12, 12⟩ :=
  ⟨(deepest_spec (MWL.mk [[some ⟨mkRat 1 10, 2150, 10, 10⟩,
        some ⟨mkRat 3 10, 2200, 12, 12⟩]]) 2180 2230 0 (by decide)).2.1
      ⟨⟨mkRat 3 10, 2200, 12, 12⟩, by decide, by decide⟩,
   (deepest_spec (MWL.mk [[some ⟨mkRat 1 10, 2150, 10, 10⟩,
        some ⟨mkRat 3 10, 2200, 12, 12⟩]]) 2180 2230 0 (by decide)).2.2,
   by decide⟩

/-- In a deepest-first sorted slot list, the head's key dominates every
member's key. -/
theorem sorted_rdep_head {o : Option Feature} {rest : List (Option Feature)}
    (h : (o :: rest).Sorted rdep) : ∀ x ∈ o :: rest, depthKey x ≤ depthKey o := by
  intro x hx
  rcases List.mem_cons.mp hx with rfl | hx
  · exact le_refl _
  · exact List.rel_of_sorted_cons h x hx

/-- In a deepest-first sorted slot list, the last element's key is dominated
by every member's key. -/
theorem sorted_rdep_getLast : ∀ {l : List (Option Feature)}, l.Sorted rdep →
    ∀ {y}, l.getLast? = some y → ∀ x ∈ l, depthKey y ≤ depthKey x := by
  intro l
  induction l with
  | nil =>
    intro _ y hy
    exact absurd hy (Option.noConfusion)
  | cons a t ih =>
    intro h y hy x hx
    cases t with
    | nil =>
      simp only [List.getLast?_singleton, Option.some_inj] at hy
      subst hy
      rcases List.mem_cons.mp hx with rfl | hx
      · exact le_refl _
      · exact absurd hx (List.not_mem_nil x)
    | cons b t2 =>
      rw [List.getLast?_cons_cons] at hy
      rcases List.mem_cons.mp hx with rfl | hx
      · have hym : y ∈ b :: t2 := by
          obtain ⟨hne, hyl⟩ := List.mem_getLast?_eq_getLast (Option.mem_def.mpr hy)
          exact hyl ▸ List.getLast_mem hne
        exact List.rel_of_sorted_cons h y hym
      · exact ih h.of_cons hy x hx

/-- Indexing a list at `length - 1` returns its last element. -/
theorem getD_last_of_getLast {α : Type} : ∀ (l : List α) (d y : α), l.getLast? = some y →
    l.getD (l.length - 1) d = y := by
  intro l
  induction l with
  | nil =>
    intro d y hy
    exact absurd hy (Option.noConfusion)
  | cons a t ih =>
    intro d y hy
    cases t with
    | nil =>
      simp only [List.getLast?_singleton, Option.some_inj] at hy
      simp [hy]
    | cons b t2 =>
      rw [List.getLast?_cons_cons] at hy
      have hlen : (a :: b :: t2).length - 1 = ((b :: t2).length - 1) + 1 := by
        simp only [List.length_cons]
        omega
      rw [hlen, List.getD_cons_succ]
      exact ih d y hy

/-- Python index `-1` addresses the last slot. -/
theorem pyIdx_neg_one (len : Nat) : pyIdx (-1) len = len - 1 := by
  unfold pyIdx
  rw [if_neg (by omega)]
  omega

/-- Membership in `validDepths` is existence of a valid feature with that
depth. -/
theorem mem_validDepths {slots : List (Option Feature)} {e : ℚ} :
    e ∈ validDepths slots ↔ ∃ f : Feature, some f ∈ slots ∧ f.depth = e := by
  unfold validDepths
  simp only [List.mem_map, List.mem_filterMap, id_eq]
  constructor
  · rintro ⟨f, ⟨o, ho, rfl⟩, rfl⟩
    exact ⟨f, ho, rfl⟩
  · rintro ⟨f, hf, rfl⟩
    exact ⟨f, ⟨some f, hf, rfl⟩, rfl⟩

/-- Reading `m[k, a]` at an in-bounds unit projects that unit's `k`-th slot. -/
theorem getItem_getD (m : MWL) (k : Int) (a : Attr) (u : Nat) (hu : u < m.units.length) :
    (m.getItem k a).getD u none =
      ((m.units.getD u []).getD (pyIdx k (m.units.getD u []).length) none).map a.proj := by
  unfold MWL.getItem
  exact getD_map_of_lt _ _ u [] none hu

/-- C5 (amended): after `sortByDepth()`, `[0,'depth']` yields the maximum
depth among a unit's valid features for every unit with at least one valid
feature; `[-1,'depth']` yields the minimum for units all of whose slots are
valid — when a unit carries NaN padding, the padding sorts last, so
`[-1,'depth']` addresses a NaN slot instead of the shallowest valid one. -/
theorem sortByDepth_getItem (m : MWL) (u : Nat) (hu : u < m.units.length) :
    (validDepths (m.units.getD u []) ≠ [] →
      ∃ d, (m.sortByDepth.getItem 0 Attr.depth).getD u none = some d ∧
        d ∈ validDepths (m.units.getD u []) ∧
        ∀ e ∈ validDepths (m.units.getD u []), e ≤ d) ∧
    ((∀ o ∈ m.units.getD u [], o.isSome) → m.units.getD u [] ≠ [] →
      ∃ d, (m.sortByDepth.getItem (-1) Attr.depth).getD u none = some d ∧
        d ∈ validDepths (m.units.getD u []) ∧
        ∀ e ∈ validDepths (m.units.getD u []), d ≤ e) := by
  have hu2 : u < m.sortByDepth.units.length := by
    unfold MWL.sortByDepth
    simpa using hu
  have hs : m.sortByDepth.units.getD u [] =
      List.insertionSort rdep (m.units.getD u []) := by
    unfold MWL.sortByDepth
    exact getD_map_of_lt _ _ u [] [] hu
  have hperm : (List.insertionSort rdep (m.units.getD u [])).Perm (m.units.getD u []) :=
    List.perm_insertionSort rdep _
  have hsorted : (List.insertionSort rdep (m.units.getD u [])).Sorted rdep :=
    List.sorted_insertionSort rdep _
  constructor
  · intro hne
    obtain ⟨e0, he0⟩ := List.exists_mem_of_ne_nil _ hne
    obtain ⟨f0, hf0, rfl⟩ := mem_validDepths.mp he0
    have hf0s : some f0 ∈ List.insertionSort rdep (m.units.getD u []) :=
      hperm.mem_iff.mpr hf0
    cases hss : List.insertionSort rdep (m.units.getD u []) with
    | nil =>
      rw [hss] at hf0s
      exact absurd hf0s (List.not_mem_nil _)
    | cons o rest =>
      have hhead := sorted_rdep_head (hss ▸ hsorted)
      have hle : depthKey (some f0) ≤ depthKey o := hhead _ (hss ▸ hf0s)
      cases o with
      | none => exact absurd hle (by simp [depthKey])
      | some g =>
        refine ⟨g.depth, ?_, ?_, ?_⟩
        · rw [getItem_getD m.sortByDepth 0 Attr.depth u hu2, hs, hss]
          rfl
        · refine mem_validDepths.mpr ⟨g, ?_, rfl⟩
          exact hperm.mem_iff.mp (hss ▸ List.mem_cons_self _ _)
        · intro e he
          obtain ⟨f, hf, rfl⟩ := mem_validDepths.mp he
          have hfs : some f ∈ (some g) :: rest := hss ▸ hperm.mem_iff.mpr hf
          have := hhead _ hfs
          exact WithBot.coe_le_coe.mp this
  · intro hall hne2
    have hssne : List.insertionSort rdep (m.units.getD u []) ≠ [] := by
      intro hc
      rw [hc] at hperm
      exact hne2 hperm.symm.eq_nil
    obtain ⟨y, hy⟩ := Option.isSome_iff_exists.mp (List.getLast?_isSome.mpr hssne)
    have hymem : y ∈ List.insertionSort rdep (m.units.getD u []) := by
      obtain ⟨hne3, hyl⟩ := List.mem_getLast?_eq_getLast (Option.mem_def.mpr hy)
      exact hyl ▸ List.getLast_mem hne3
    have hymin := sorted_rdep_getLast hsorted hy
    have hysome : y.isSome := hall y (hperm.mem_iff.mp hymem)
    cases y with
    | none => exact absurd hysome (by simp)
    | some g =>
      refine ⟨g.depth, ?_, ?_, ?_⟩
      · rw [getItem_getD m.sortByDepth (-1) Attr.depth u hu2, hs, pyIdx_neg_one,
          getD_last_of_getLast _ none _ hy]
        rfl
      · exact mem_validDepths.mpr ⟨g, hperm.mem_iff.mp hymem, rfl⟩
      · intro e he
        obtain ⟨f, hf, rfl⟩ := mem_validDepths.mp he
        have hfs : some f ∈ List.insertionSort rdep (m.units.getD u []) :=
          hperm.mem_iff.mpr hf
        exact WithBot.coe_le_coe.mp (hymin _ hfs)

/-- A fully valid example unit: two features of depths 3 and 1. -/
def mwlAllValid : MWL :=
  ⟨[[some ⟨1, 2200, 5, 5⟩, some ⟨3, 2150, 6, 6⟩]]⟩

/-- Witness for C5 (amended) on a unit whose two slots are both valid. -/
theorem sortByDepth_getItem_witness :
    (∃ d, (mwlAllValid.sortByDepth.getItem 0 Attr.depth).getD 0 none = some d ∧
      d ∈ validDepths (mwlAllValid.units.getD 0 []) ∧
      ∀ e ∈ validDepths (mwlAllValid.units.getD 0 []), e ≤ d) ∧
    (∃ d, (mwlAllValid.sortByDepth.getItem (-1) Attr.depth).getD 0 none = some d ∧
      d ∈ validDepths (mwlAllValid.units.getD 0 []) ∧
      ∀ e ∈ validDepths (mwlAllValid.units.getD 0 []), d ≤ e) :=
  ⟨(sortByDepth_getItem mwlAllValid 0 (by decide)).1 (by decide),
   (sortByDepth_getItem mwlAllValid 0 (by decide)).2 (by decide) (by decide)⟩

/-- A padded example unit: one valid feature (depth 0.3) and one NaN slot. -/
def mwlPadded : MWL :=
  ⟨[[some ⟨mkRat 3 10, 2200, 5, 5⟩, none]]⟩

/-- Counterexample to C5 as stated: this unit has a valid feature (its
minimum valid depth is 0.3), yet after `sortByDepth()` the indexed access
`[-1,'depth']` returns NaN (`none`) — the padding slot — not the minimum
valid depth. -/
theorem sortByDepth_getItem_cex :
    validDepths (mwlPadded.units.getD 0 []) = [mkRat 3 10] ∧
    (mwlPadded.sortByDepth.getItem (-1) Attr.depth).getD 0 none = none := by
  constructor
  · decide
  · decide

/-! ## Feature fitting engine -/

/-- Modelled from the spec: the samples of one unit's spectrum whose
wavelength lies in the fitting window `[lo, hi]`; a NaN sample is `none`. -/
def windowPts (wav : List ℚ) (vals : List (Option ℚ)) (lo hi : ℚ) : List (ℚ × Option ℚ) :=
  (wav.zip vals).filter (fun p => decide (lo ≤ p.1) && decide (p.1 ≤ hi))

/-- Modelled from the spec: the local minima of a (wavelength, value)
sequence — interior samples strictly below both neighbours. -/
def localMinima : List (ℚ × ℚ) → List (ℚ × ℚ)
  | a :: b :: c :: rest =>
    (if b.2 < a.2 ∧ b.2 < c.2 then [b] else []) ++ localMinima (b :: c :: rest)
  | _ => []

/-- Modelled from the spec: candidate minima ranked by prominence, deepest
(lowest hull-corrected value) first. -/
def rankByDepth (mins : List (ℚ × ℚ)) : List (ℚ × ℚ) :=
  mins.insertionSort (fun a b => a.2 ≤ b.2)

/-- Modelled from the spec: the left half-depth crossing estimate — the
rightmost in-window sample left of the minimum lying at or above the
half-depth level, defaulting to the window start. -/
def halfLeft (pts : List (ℚ × ℚ)) (c lv lo : ℚ) : ℚ :=
  (pts.filter (fun p => decide (p.1 < c) && decide (lv ≤ p.2))).foldl
    (fun acc p => max acc p.1) lo

/-- Modelled from the spec: the right half-depth crossing estimate,
defaulting to the window end. -/
def halfRight (pts : List (ℚ × ℚ)) (c lv hi : ℚ) : ℚ :=
  (pts.filter (fun p => decide (c < p.1) && decide (lv ≤ p.2))).foldl
    (fun acc p => min acc p.1) hi

/-- Modelled from the spec: build a feature record from a located minimum of
a hull-corrected signal — depth from the sample value, position from the
sample wavelength, widths from the half-depth crossing points. -/
def mkFeat (pts : List (ℚ × ℚ)) (lo hi : ℚ) (p : ℚ × ℚ) : Feature :=
  let lv := (1 + p.2) / 2
  let l := halfLeft pts p.1 lv lo
  let r := halfRight pts p.1 lv hi
  ⟨1 - p.2, p.1, r - l, r - p.1⟩

/-- Modelled from the spec: the per-unit minmax fit — locate up to `n`
minima in the window, rank by depth, pad missing slots with NaN; a window
containing a NaN sample, or containing no samples, yields all-NaN records
for that unit (a per-unit failure, never an exception). -/
def fitUnit (wav : List ℚ) (lo hi : ℚ) (n : Nat) (vals : List (Option ℚ)) :
    List (Option Feature) :=
  let pts0 := windowPts wav vals lo hi
  if pts0.any (fun p => p.2.isNone) ∨ pts0 = [] then List.replicate n none
  else
    let pts := pts0.filterMap (fun p => p.2.map (fun v => (p.1, v)))
    let feats := ((rankByDepth (localMinima pts)).take n).map
      (fun p => some (mkFeat pts lo hi p))
    feats ++ List.replicate (n - feats.length) none

/-- The configuration errors raised for invalid global parameters. -/
inductive ConfigError
  | nonPositiveFeatureCount
  | windowOutsideDomain
deriving DecidableEq

/-- Modelled from the spec: the fitting window must lie within the spectral
domain of the wavelength axis. -/
def windowValid (wav : List ℚ) (lo hi : ℚ) : Bool :=
  decide (lo ≤ hi) && decide ((wav.minimum : WithTop ℚ) ≤ (lo : WithTop ℚ))
    && decide ((hi : WithBot ℚ) ≤ wav.maximum)

/-- Modelled from the spec: `minimum_wavelength` — validate the global
parameters first (failing fast with a configuration error before any
fitting), then fit every unit independently. -/
def minimum_wavelength (wav : List ℚ) (data : List (List (Option ℚ))) (lo hi : ℚ)
    (n : Nat) : Except ConfigError (List (List (Option Feature))) :=
  if n = 0 then .error ConfigError.nonPositiveFeatureCount
  else if windowValid wav lo hi = false then .error ConfigError.windowOutsideDomain
  else .ok (data.map (fitUnit wav lo hi n))

/-- Every per-unit result carries exactly `n` feature slots. -/
theorem fitUnit_length (wav : List ℚ) (lo hi : ℚ) (n : Nat) (vals : List (Option ℚ)) :
    (fitUnit wav lo hi n vals).length = n := by
  unfold fitUnit
  dsimp only
  split
  · exact List.length_replicate n none
  · simp only [List.length_append, List.length_replicate, List.length_map, List.length_take]
    omega

/-- C4: invalid global parameters (zero feature count, window outside the
spectral domain) yield a configuration error that is independent of the
spectral data — before any fitting; with valid global parameters the batch
always succeeds, each unit's record is the independent fit of that unit's
spectrum alone (so a per-unit failure yields NaN records for that unit
only), and every unit gets exactly `n` slots. -/
theorem minimum_wavelength_failure_handling (wav : List ℚ)
    (data : List (List (Option ℚ))) (lo hi : ℚ) (n : Nat) :
    (n = 0 ∨ windowValid wav lo hi = false →
      ∃ e : ConfigError, ∀ data2 : List (List (Option ℚ)),
        minimum_wavelength wav data2 lo hi n = .error e) ∧
    (n ≠ 0 → windowValid wav lo hi = true →
      minimum_wavelength wav data lo hi n = .ok (data.map (fitUnit wav lo hi n)) ∧
      ∀ r ∈ data.map (fitUnit wav lo hi n), r.length = n) := by
  constructor
  · intro h
    by_cases hn : n = 0
    · exact ⟨ConfigError.nonPositiveFeatureCount,
        fun data2 => by simp [minimum_wavelength, hn]⟩
    · have hw : windowValid wav lo hi = false := h.resolve_left hn
      exact ⟨ConfigError.windowOutsideDomain,
        fun data2 => by simp [minimum_wavelength, hn, hw]⟩
  · intro hn hw
    refine ⟨by simp [minimum_wavelength, hn, hw], ?_⟩
    intro r hr
    obtain ⟨vals, _, rfl⟩ := List.mem_map.mp hr
    exact fitUnit_length wav lo hi n vals

/-- A small concrete wavelength axis. -/
def wavEx : List ℚ := [2100, 2200, 2300, 2400]

/-- Witness for C4: an all-NaN unit does not abort the batch — the call
returns ok with NaN feature records for that unit — while a zero feature
count errors uniformly in the data. -/
theorem minimum_wavelength_failure_witness :
    (minimum_wavelength wavEx [[none, none, none, none]] 2150 2380 2 =
        .ok ([[none, none, none, none]].map (fitUnit wavEx 2150 2380 2)) ∧
      ∀ r ∈ [[none, none, none, none]].map (fitUnit wavEx 2150 2380 2), r.length = 2) ∧
    (∃ e : ConfigError, ∀ data2 : List (List (Option ℚ)),
      minimum_wavelength wavEx data2 2150 2380 0 = .error e) ∧
    [[none, none, none, none]].map (fitUnit wavEx 2150 2380 2) = [[none, none]] :=
  ⟨(minimum_wavelength_failure_handling wavEx [[none, none, none, none]] 2150 2380 2).2
      (by decide) (by decide),
   (minimum_wavelength_failure_handling wavEx [] 2150 2380 0).1 (Or.inl rfl),
   by decide⟩

/-! ## Parallel execution of the fitting engine -/

/-- Modelled from the spec: resolve the thread-count convention once at
batch start — positive values are used as-is, non-positive values mean
"all cores minus the absolute value", at least one worker. -/
def resolveThreads (ncores : Nat) (nthreads : Int) : Nat :=
  if 1 ≤ nthreads then nthreads.toNat else max 1 (ncores - nthreads.natAbs)

/-- Static chunk size: ceiling of units per worker. -/
def chunkSize (len workers : Nat) : Nat := (len + workers - 1) / workers

/-- Fuel-driven splitting of a list into consecutive chunks of size `sz`. -/
def chunksAux {α : Type} : Nat → Nat → List α → List (List α)
  | _, _, [] => []
  | 0, _, l => [l]
  | fuel + 1, sz, l => l.take sz :: chunksAux fuel sz (l.drop sz)

/-- Modelled from the spec: static partition of the unit list into
consecutive chunks of size `sz`, one chunk per worker turn. -/
def chunks {α : Type} (sz : Nat) (l : List α) : List (List α) :=
  if sz = 0 then [l] else chunksAux l.length sz l

/-- Tag list entries with consecutive indices starting at `k`. -/
def indexFrom {α : Type} (k : Nat) : List α → List (Nat × α)
  | [] => []
  | x :: xs => (k, x) :: indexFrom (k + 1) xs

/-- Modelled from the spec: each worker independently maps the per-unit
fitter over its assigned chunk; outputs are tagged with the worker index. -/
def workerOutputs {α β : Type} (f : α → β) (cs : List (List α)) : List (Nat × List β) :=
  indexFrom 0 (cs.map (List.map f))

/-- Worker-index order on tagged outputs. -/
def keyLe {β : Type} (a b : Nat × List β) : Prop := a.1 ≤ b.1

instance {β : Type} : DecidableRel (@keyLe β) :=
  fun a b => Nat.decLe a.1 b.1

instance {β : Type} : IsTotal (Nat × List β) keyLe :=
  ⟨fun a b => Nat.le_total a.1 b.1⟩

instance {β : Type} : IsTrans (Nat × List β) keyLe :=
  ⟨fun _ _ _ h1 h2 => Nat.le_trans h1 h2⟩

/-- Modelled from the spec: the merge step — collect per-worker outputs,
in whatever order the workers completed, back into original unit order by
sorting on the worker index and concatenating. -/
def mergeByIndex {β : Type} (outs : List (Nat × List β)) : List β :=
  ((outs.insertionSort keyLe).map Prod.snd).flatten

/-- Splitting with nonzero chunk size and sufficient fuel loses no element
and keeps order. -/
theorem chunksAux_join {α : Type} : ∀ (fuel sz : Nat) (l : List α), sz ≠ 0 →
    l.length ≤ fuel → (chunksAux fuel sz l).flatten = l := by
  intro fuel
  induction fuel with
  | zero =>
    intro sz l hsz hlen
    have : l = [] := List.eq_nil_of_length_eq_zero (Nat.le_zero.mp hlen)
    subst this
    rfl
  | succ fuel ih =>
    intro sz l hsz hlen
    cases l with
    | nil => rfl
    | cons x xs =>
      show ((x :: xs).take sz :: chunksAux fuel sz ((x :: xs).drop sz)).flatten = x :: xs
      rw [List.flatten_cons]
      rw [ih sz ((x :: xs).drop sz) hsz]
      · exact List.take_append_drop sz (x :: xs)
      · rw [List.length_drop]
        simp only [List.length_cons] at hlen ⊢
        omega

/-- The chunks of a unit list concatenate back to it. -/
theorem chunks_join {α : Type} (sz : Nat) (l : List α) : (chunks sz l).flatten = l := by
  unfold chunks
  split
  · simp
  · exact chunksAux_join l.length sz l (by assumption) (Nat.le_refl _)

/-- Indexing from `k` tags every entry with an index at least `k`. -/
theorem indexFrom_key_ge {α : Type} : ∀ (k : Nat) (l : List α) (p : Nat × α),
    p ∈ indexFrom k l → k ≤ p.1 := by
  intro k l
  induction l generalizing k with
  | nil =>
    intro p hp
    exact absurd hp (List.not_mem_nil p)
  | cons x xs ih =>
    intro p hp
    rcases List.mem_cons.mp hp with rfl | hp
    · exact Nat.le_refl k
    · exact Nat.le_of_succ_le (ih (k + 1) p hp)

/-- The tagged indices are strictly increasing. -/
theorem indexFrom_sorted_lt {α : Type} : ∀ (k : Nat) (l : List α),
    (indexFrom k l).Pairwise (fun a b => a.1 < b.1) := by
  intro k l
  induction l generalizing k with
  | nil => exact List.Pairwise.nil
  | cons x xs ih =>
    refine List.Pairwise.cons ?_ (ih (k + 1))
    intro p hp
    exact Nat.lt_of_succ_le (indexFrom_key_ge (k + 1) xs p hp)

/-- Stripping the tags recovers the original list. -/
theorem indexFrom_map_snd {α : Type} : ∀ (k : Nat) (l : List α),
    (indexFrom k l).map Prod.snd = l := by
  intro k l
  induction l generalizing k with
  | nil => rfl
  | cons x xs ih =>
    show (k, x).2 :: (indexFrom (k + 1) xs).map Prod.snd = x :: xs
    rw [ih (k + 1)]

/-- Merging index-tagged chunks received in any completion order recovers
the concatenation of the chunks in index order. -/
theorem mergeByIndex_eq {β : Type} (cs : List (List β)) (completed : List (Nat × List β))
    (hc : completed.Perm (indexFrom 0 cs)) : mergeByIndex completed = cs.flatten := by
  have horig : (indexFrom 0 cs).Pairwise (fun a b => a.1 < b.1) := indexFrom_sorted_lt 0 cs
  have hs : (completed.insertionSort keyLe).Sorted keyLe :=
    List.sorted_insertionSort keyLe completed
  have hperm : (completed.insertionSort keyLe).Perm (indexFrom 0 cs) :=
    (List.perm_insertionSort keyLe completed).trans hc
  have hne : (completed.insertionSort keyLe).Pairwise (fun a b => a.1 ≠ b.1) := by
    refine (hperm.pairwise_iff ?_).mpr (horig.imp ?_)
    · intro a b hab
      exact hab.symm
    · intro a b hab
      exact Nat.ne_of_lt hab
  have hs2 : (completed.insertionSort keyLe).Pairwise (fun a b => a.1 < b.1) := by
    refine (hs.and hne).imp ?_
    intro a b hab
    exact Nat.lt_of_le_of_ne hab.1 hab.2
  have hfinal : completed.insertionSort keyLe = indexFrom 0 cs := by
    haveI : IsAntisymm (Nat × List β) (fun a b => a.1 < b.1) :=
      ⟨fun a b h1 h2 => absurd h1 (Nat.lt_asymm h2)⟩
    exact List.eq_of_perm_of_sorted hperm hs2 horig
  unfold mergeByIndex
  rw [hfinal, indexFrom_map_snd]

/-- C9: for every thread-count setting (including the negative "all cores
minus value" convention) and every worker completion order, merging the
per-worker outputs of the fitting engine yields exactly the single-threaded
result, per unit, in the original unit order. -/
theorem minimum_wavelength_parallel (wav : List ℚ) (data : List (List (Option ℚ)))
    (lo hi : ℚ) (n : Nat) (ncores : Nat) (nthreads : Int)
    (completed : List (Nat × List (List (Option Feature))))
    (hc : completed.Perm (workerOutputs (fitUnit wav lo hi n)
      (chunks (chunkSize data.length (resolveThreads ncores nthreads)) data))) :
    mergeByIndex completed = data.map (fitUnit wav lo hi n) := by
  rw [mergeByIndex_eq _ completed hc]
  rw [← List.map_flatten, chunks_join]

/-- Witness for C9: three units split over two workers whose outputs arrive
in reversed completion order still merge to the single-threaded result. -/
theorem minimum_wavelength_parallel_witness :
    mergeByIndex [(1, [[(none : Option Feature), none]]),
        (0, [[none, none], [none, none]])] =
      [[none], [none], [none]].map (fitUnit wavEx 2150 2380 2) :=
  minimum_wavelength_parallel wavEx [[none], [none], [none]] 2150 2380 2 4 2
    [(1, [[none, none]]), (0, [[none, none], [none, none]])] (by decide)

/-! ## Panel back-calculation (translated from the notebook's linear system) -/

/-- A calibration panel as used by the notebook's back-calculation cell:
known per-wavelength reflectance, skyview factor, Lambertian factor `alpha`,
distance to sensor, and whether it was shaded (no direct sunlight). -/
structure CalPanel where
  refl : List ℚ
  skyview : ℚ
  alpha : ℚ
  dist : ℚ
  shaded : Bool

/-- One row of the notebook's per-wavelength coefficient matrix `A`:
`(reflectance × skyview, reflectance × alpha, distance)`, with the sunlight
coefficient zeroed for a shaded panel. -/
def panelRow (p : CalPanel) (w : Nat) : ℚ × ℚ × ℚ :=
  (p.refl.getD w 0 * p.skyview,
   if p.shaded then 0 else p.refl.getD w 0 * p.alpha,
   p.dist)

/-- Radiance synthesized from known constants by the forward equation
`radiance = refl × skyview × skylight + refl × alpha × sunlight +
 distance × pathrad_per_meter`. -/
def panelRadiance (p : CalPanel) (sky sun prm : List ℚ) (w : Nat) : ℚ :=
  (panelRow p w).1 * sky.getD w 0 + (panelRow p w).2.1 * sun.getD w 0
    + (panelRow p w).2.2 * prm.getD w 0

/-- Determinant of a 3×3 matrix given as three rows. -/
def det3 (r1 r2 r3 : ℚ × ℚ × ℚ) : ℚ :=
  r1.1 * (r2.2.1 * r3.2.2 - r3.2.1 * r2.2.2)
    - r1.2.1 * (r2.1 * r3.2.2 - r3.1 * r2.2.2)
    + r1.2.2 * (r2.1 * r3.2.1 - r3.1 * r2.2.1)

/-- The linear-solve failure surfaced to the caller. -/
inductive SolveError
  | singular
deriving DecidableEq

/-- Direct 3×3 linear solve (Cramer's rule), modelling the notebook's
`np.linalg.solve` call: a singular coefficient matrix propagates as a solve
failure instead of being silently repaired. -/
def solve3 (r1 r2 r3 : ℚ × ℚ × ℚ) (y1 y2 y3 : ℚ) : Except SolveError (ℚ × ℚ × ℚ) :=
  let d := det3 r1 r2 r3
  if d = 0 then .error SolveError.singular
  else .ok
    (det3 (y1, r1.2.1, r1.2.2) (y2, r2.2.1, r2.2.2) (y3, r3.2.1, r3.2.2) / d,
     det3 (r1.1, y1, r1.2.2) (r2.1, y2, r2.2.2) (r3.1, y3, r3.2.2) / d,
     det3 (r1.1, r1.2.1, y1) (r2.1, r2.2.1, y2) (r3.1, r3.2.1, y3) / d)

/-- The notebook's per-wavelength panel back-calculation: build the three
coefficient rows from the panels and solve against their mean radiances. -/
def backCalc (p1 p2 p3 : CalPanel) (b1 b2 b3 : List ℚ) (w : Nat) :
    Except SolveError (ℚ × ℚ × ℚ) :=
  solve3 (panelRow p1 w) (panelRow p2 w) (panelRow p3 w)
    (b1.getD w 0) (b2.getD w 0) (b3.getD w 0)

/-- Cramer's rule recovers the exact solution of a consistent 3×3 system
with nonzero determinant. -/
theorem solve3_cramer (r1 r2 r3 : ℚ × ℚ × ℚ) (x y z : ℚ)
    (hdet : det3 r1 r2 r3 ≠ 0) :
    solve3 r1 r2 r3 (r1.1 * x + r1.2.1 * y + r1.2.2 * z)
      (r2.1 * x + r2.2.1 * y + r2.2.2 * z)
      (r3.1 * x + r3.2.1 * y + r3.2.2 * z) = .ok (x, y, z) := by
  obtain ⟨a1, b1, c1⟩ := r1
  obtain ⟨a2, b2, c2⟩ := r2
  obtain ⟨a3, b3, c3⟩ := r3
  unfold solve3
  rw [if_neg hdet]
  have hx : det3 (a1 * x + b1 * y + c1 * z, b1, c1) (a2 * x + b2 * y + c2 * z, b2, c2)
      (a3 * x + b3 * y + c3 * z, b3, c3) = x * det3 (a1, b1, c1) (a2, b2, c2) (a3, b3, c3) := by
    unfold det3
    ring
  have hy : det3 (a1, a1 * x + b1 * y + c1 * z, c1) (a2, a2 * x + b2 * y + c2 * z, c2)
      (a3, a3 * x + b3 * y + c3 * z, c3) = y * det3 (a1, b1, c1) (a2, b2, c2) (a3, b3, c3) := by
    unfold det3
    ring
  have hz : det3 (a1, b1, a1 * x + b1 * y + c1 * z) (a2, b2, a2 * x + b2 * y + c2 * z)
      (a3, b3, a3 * x + b3 * y + c3 * z) = z * det3 (a1, b1, c1) (a2, b2, c2) (a3, b3, c3) := by
    unfold det3
    ring
  simp only at hx hy hz ⊢
  rw [hx, hy, hz, mul_div_cancel_right₀ x hdet, mul_div_cancel_right₀ y hdet,
    mul_div_cancel_right₀ z hdet]

/-- C8: when the three panel radiances were synthesized from known constant
skylight, sunlight and path-radiance-per-meter values, the per-wavelength
back-calculation solve recovers exactly those constants at every wavelength
with a non-singular coefficient matrix, and a singular matrix propagates as
a solve failure to the caller. -/
theorem backCalc_recovers (p1 p2 p3 : CalPanel) (sky sun prm b1 b2 b3 : List ℚ) (w : Nat)
    (h1 : b1.getD w 0 = panelRadiance p1 sky sun prm w)
    (h2 : b2.getD w 0 = panelRadiance p2 sky sun prm w)
    (h3 : b3.getD w 0 = panelRadiance p3 sky sun prm w) :
    (det3 (panelRow p1 w) (panelRow p2 w) (panelRow p3 w) ≠ 0 →
      backCalc p1 p2 p3 b1 b2 b3 w = .ok (sky.getD w 0, sun.getD w 0, prm.getD w 0)) ∧
    (det3 (panelRow p1 w) (panelRow p2 w) (panelRow p3 w) = 0 →
      backCalc p1 p2 p3 b1 b2 b3 w = .error SolveError.singular) := by
  constructor
  · intro hdet
    unfold backCalc
    rw [h1, h2, h3]
    unfold panelRadiance
    exact solve3_cramer _ _ _ _ _ _ hdet
  · intro hdet
    unfold backCalc solve3
    rw [h1, h2, h3, if_pos hdet]

/-- Two lit panels (reflectance 0.25 and 0.5) and one shaded panel, 30 m
from the sensor, as in the notebook. -/
def panel25 : CalPanel := ⟨[mkRat 1 4], 1, 1, 30, false⟩

/-- The 50 % lit panel. -/
def panel50 : CalPanel := ⟨[mkRat 1 2], 1, 1, 30, false⟩

/-- The shaded panel (no direct sunlight contribution). -/
def panelShade : CalPanel := ⟨[mkRat 99 100], 1, 1, 30, true⟩

/-- Witness for C8: concrete panels with radiances synthesized from
skylight 2, sunlight 9 and path radiance 1/100 per meter; the solve
recovers those constants. -/
theorem backCalc_recovers_witness :
    det3 (panelRow panel25 0) (panelRow panel50 0) (panelRow panelShade 0) ≠ 0 ∧
    backCalc panel25 panel50 panelShade
      [panelRadiance panel25 [2] [9] [mkRat 1 100] 0]
      [panelRadiance panel50 [2] [9] [mkRat 1 100] 0]
      [panelRadiance panelShade [2] [9] [mkRat 1 100] 0] 0 =
      .ok ((2 : ℚ), (9 : ℚ), mkRat 1 100) := by
  have hdet : det3 (panelRow panel25 0) (panelRow panel50 0) (panelRow panelShade 0) ≠ 0 := by
    norm_num [det3, panelRow, panel25, panel50, panelShade]
  refine ⟨hdet, ?_⟩
  have h := (backCalc_recovers panel25 panel50 panelShade [2] [9] [mkRat 1 100]
    [panelRadiance panel25 [2] [9] [mkRat 1 100] 0]
    [panelRadiance panel50 [2] [9] [mkRat 1 100] 0]
    [panelRadiance panelShade [2] [9] [mkRat 1 100] 0] 0 rfl rfl rfl).1 hdet
  simpa using h

/-! ## Band lookup threshold -/

/-- The errors a band lookup can raise. -/
inductive BandError
  | emptyAxis
  | outsideThreshold
deriving DecidableEq

/-- Modelled from the spec: `get_band_index(w)` (missing from `src/`, whose
notebooks only call and describe it) — find the band whose wavelength is
closest to `w`; raise unless the difference is within the band-selection
threshold `thr` (the process-wide `hylite.band_select_threshold`). -/
def get_band_index (wav : List ℚ) (thr : ℚ) (w : ℚ) : Except BandError Nat :=
  match (List.range wav.length).argmin (fun i => |wav.getD i 0 - w|) with
  | none => .error BandError.emptyAxis
  | some i =>
    if |wav.getD i 0 - w| ≤ thr then .ok i else .error BandError.outsideThreshold

/-- C10: on a nonempty wavelength axis, a lookup succeeds exactly when the
closest band's wavelength lies within the threshold of the request (so
raising the threshold turns an erroring lookup into a succeeding one), and
a successful lookup returns an in-range index minimizing the distance. -/
theorem get_band_index_spec (wav : List ℚ) (thr thr2 w : ℚ) (hne : wav ≠ []) :
    (∀ i : Nat, get_band_index wav thr w = .ok i →
      i < wav.length ∧ ∀ j : Nat, j < wav.length →
        |wav.getD i 0 - w| ≤ |wav.getD j 0 - w|) ∧
    ((∃ i, get_band_index wav thr w = .ok i) ↔
      ∃ j : Nat, j < wav.length ∧ |wav.getD j 0 - w| ≤ thr) ∧
    (thr ≤ thr2 → (∃ i, get_band_index wav thr w = .ok i) →
      ∃ i, get_band_index wav thr2 w = .ok i) := by
  have hrne : List.range wav.length ≠ [] := by
    rw [ne_eq, List.range_eq_nil]
    intro hc
    exact hne (List.eq_nil_of_length_eq_zero hc)
  obtain ⟨m, hm⟩ : ∃ m, (List.range wav.length).argmin
      (fun i => |wav.getD i 0 - w|) = some m := by
    cases hh : (List.range wav.length).argmin (fun i => |wav.getD i 0 - w|) with
    | none => exact absurd (List.argmin_eq_none.mp hh) hrne
    | some m => exact ⟨m, rfl⟩
  have hmmem : m ∈ List.range wav.length := List.argmin_mem hm
  have hmlt : m < wav.length := List.mem_range.mp hmmem
  have hmmin : ∀ j : Nat, j < wav.length →
      |wav.getD m 0 - w| ≤ |wav.getD j 0 - w| := by
    intro j hj
    have hmem : m ∈ (List.range wav.length).argmin (fun i => |wav.getD i 0 - w|) :=
      Option.mem_def.mpr hm
    exact @List.le_of_mem_argmin Nat ℚ _ (fun i => |wav.getD i 0 - w|)
      (List.range wav.length) j m (List.mem_range.mpr hj) hmem
  refine ⟨?_, ?_, ?_⟩
  · intro i hok
    simp only [get_band_index, hm] at hok
    by_cases hth : |wav.getD m 0 - w| ≤ thr
    · rw [if_pos hth] at hok
      obtain rfl : m = i := by exact Except.ok.inj hok
      exact ⟨hmlt, hmmin⟩
    · rw [if_neg hth] at hok
      exact absurd hok (by simp)
  · constructor
    · rintro ⟨i, hok⟩
      simp only [get_band_index, hm] at hok
      by_cases hth : |wav.getD m 0 - w| ≤ thr
      · exact ⟨m, hmlt, hth⟩
      · rw [if_neg hth] at hok
        exact absurd hok (by simp)
    · rintro ⟨j, hj, hjthr⟩
      refine ⟨m, ?_⟩
      simp only [get_band_index, hm]
      rw [if_pos (le_trans (hmmin j hj) hjthr)]
  · intro hle hok
    obtain ⟨i, hok⟩ := hok
    simp only [get_band_index, hm] at hok
    by_cases hth : |wav.getD m 0 - w| ≤ thr
    · refine ⟨m, ?_⟩
      simp only [get_band_index, hm]
      rw [if_pos (le_trans hth hle)]
    · rw [if_neg hth] at hok
      exact absurd hok (by simp)

/-- Witness for C10, replaying the notebook scenario: looking up 2415 nm
(15 nm past the last band) errors with threshold 10 but succeeds after the
threshold is raised to 20. -/
theorem get_band_index_witness :
    ¬(∃ i, get_band_index wavEx 10 2415 = .ok i) ∧
    (∃ i, get_band_index wavEx 20 2415 = .ok i) := by
  constructor
  · intro hok
    have h := ((get_band_index_spec wavEx 10 20 2415 (by decide)).2.1).mp hok
    obtain ⟨j, hj, habs⟩ := h
    have hj4 : j < 4 := by simpa [wavEx] using hj
    interval_cases j <;> norm_num [wavEx] at habs
  · exact ((get_band_index_spec wavEx 20 25 2415 (by decide)).2.1).mpr
      ⟨3, by simp [wavEx], by norm_num [wavEx]⟩

end HyDemo
